import Mathlib

/-!
Verification of the blocklang-installer core against its specification.

The development shallowly embeds the two source files of the repository:

* `src/config.rs` — the configuration store (`Config`, `InstallerConfig`,
  `add_installer`, `remove_installer`, `get_installer_by_port`, `save_to`,
  `read_from`, `get`);
* `src/lib.rs` — artifact download (`download`) and archive extraction
  (`unzip_to`, `unzip_file`).

Stateful filesystem and network behaviour is embedded by explicit state
passing.  External collaborators (the `toml` codec, the HTTP client, the
zip entry sanitizer, the network-interface lookup) are modelled concretely
where the claims depend on their behaviour.
-/

namespace Installer

/-- Modelled from the spec: `InstallerInfo` (defined in `src/http/client.rs`,
which is not part of the sources in scope) is the registration record obtained
from the control plane, carrying exactly the nine fields that
`add_installer` consumes. -/
structure InstallerInfo where
  url : String
  installer_token : String
  app_name : String
  app_version : String
  app_file_name : String
  app_run_port : Nat
  jdk_name : String
  jdk_version : String
  jdk_file_name : String
deriving DecidableEq, Repr

/-- `InstallerConfig` from `src/config.rs`: one installed application
instance recorded in the store. -/
structure InstallerConfig where
  url : String
  installer_token : String
  app_name : String
  app_version : String
  app_file_name : String
  app_run_port : Nat
  jdk_name : String
  jdk_version : String
  jdk_file_name : String
deriving DecidableEq, Repr

/-- `Config` from `src/config.rs`: the server token plus the ordered
sequence of installer records. -/
structure Config where
  server_token : String
  installers : List InstallerConfig
deriving DecidableEq, Repr

/-- `add_installer` from `src/config.rs`: build an `InstallerConfig` from the
`InstallerInfo` fields and push it onto the end of the sequence. -/
def add_installer (config_info : Config) (installer_info : InstallerInfo) : Config :=
  { config_info with
    installers := config_info.installers ++
      [{ url := installer_info.url
         installer_token := installer_info.installer_token
         app_name := installer_info.app_name
         app_version := installer_info.app_version
         app_file_name := installer_info.app_file_name
         app_run_port := installer_info.app_run_port
         jdk_name := installer_info.jdk_name
         jdk_version := installer_info.jdk_version
         jdk_file_name := installer_info.jdk_file_name }] }

/-- `remove_installer` from `src/config.rs`: find the position of the first
record whose `installer_token` matches and remove it; do nothing when no
record matches. -/
def remove_installer (config_info : Config) (installer_token : String) : Config :=
  match config_info.installers.findIdx? (fun item => item.installer_token == installer_token) with
  | none => config_info
  | some index => { config_info with installers := config_info.installers.eraseIdx index }

/-- `get_installer_by_port` from `src/config.rs`: `find_map` over the
sequence, yielding the first record bound to the given port. -/
def get_installer_by_port (config_info : Config) (app_run_port : Nat) : Option InstallerConfig :=
  config_info.installers.findSome? (fun installer =>
    if installer.app_run_port == app_run_port then some installer else none)

/-- The position-then-remove pattern of `remove_installer` coincides with
erasing the first element satisfying the predicate. -/
theorem findIdx?_eraseIdx_eq_eraseP {α : Type} (p : α → Bool) (l : List α) :
    (match l.findIdx? p with
     | none => l
     | some i => l.eraseIdx i) = l.eraseP p := by
  induction l with
  | nil => rfl
  | cons a l ih =>
    rw [List.findIdx?_cons]
    by_cases h : p a
    · simp [h, List.eraseP_cons]
    · rw [List.findIdx?_succ]
      cases hfi : l.findIdx? p with
      | none =>
        rw [hfi] at ih
        have ih' : l = List.eraseP p l := ih
        simp [h, List.eraseP_cons, ← ih']
      | some i =>
        rw [hfi] at ih
        have ih' : l.eraseIdx i = List.eraseP p l := ih
        simp [h, List.eraseP_cons, List.eraseIdx_cons_succ, ← ih']

theorem remove_installer_eq_eraseP (c : Config) (tok : String) :
    remove_installer c tok =
      { c with installers := c.installers.eraseP (fun item => item.installer_token == tok) } := by
  unfold remove_installer
  rw [← findIdx?_eraseIdx_eq_eraseP (fun item => item.installer_token == tok) c.installers]
  cases c.installers.findIdx? (fun item => item.installer_token == tok) <;> rfl

theorem get_installer_by_port_eq_find? (c : Config) (port : Nat) :
    get_installer_by_port c port = c.installers.find? (fun r => r.app_run_port == port) := by
  unfold get_installer_by_port
  induction c.installers with
  | nil => rfl
  | cons a l ih =>
    cases h : a.app_run_port == port with
    | true =>
      have hq : a.app_run_port = port := by simpa using h
      simp [List.findSome?_cons, List.find?_cons, h, hq]
    | false =>
      simp only [List.findSome?_cons, List.find?_cons, h]
      exact ih

/-- C9: `get_installer_by_port` performs a linear scan of the installer
sequence and returns the first record whose `app_run_port` equals the given
port, or `none` when no record matches. -/
theorem get_installer_by_port_spec (c : Config) (port : Nat) :
    get_installer_by_port c port = c.installers.find? (fun r => r.app_run_port == port)
    ∧ (get_installer_by_port c port = none ↔ ∀ r ∈ c.installers, r.app_run_port ≠ port)
    ∧ ∀ r, get_installer_by_port c port = some r →
        r.app_run_port = port ∧
        ∃ l₁ l₂, c.installers = l₁ ++ r :: l₂ ∧ ∀ x ∈ l₁, x.app_run_port ≠ port := by
  refine ⟨get_installer_by_port_eq_find? c port, ?_, ?_⟩
  · rw [get_installer_by_port_eq_find?, List.find?_eq_none]
    constructor
    · intro h r hr
      simpa using h r hr
    · intro h r hr
      simpa using h r hr
  · intro r hr
    rw [get_installer_by_port_eq_find?] at hr
    obtain ⟨hp, l₁, l₂, heq, hall⟩ := List.find?_eq_some.mp hr
    refine ⟨by simpa using hp, l₁, l₂, heq, ?_⟩
    intro x hx
    simpa using hall x hx

/-- The one-record store used to instantiate the store theorems. -/
def sample_installer : InstallerConfig :=
  { url := "1", installer_token := "2", app_name := "3", app_version := "4",
    app_file_name := "5", app_run_port := 6, jdk_name := "7", jdk_version := "8",
    jdk_file_name := "9" }

/-- The registration record used to instantiate the store theorems. -/
def sample_info : InstallerInfo :=
  { url := "1", installer_token := "2", app_name := "3", app_version := "4",
    app_file_name := "5", app_run_port := 6, jdk_name := "7", jdk_version := "8",
    jdk_file_name := "9" }

/-- A concrete store holding exactly one installer record. -/
def sample_config : Config := { server_token := "1", installers := [sample_installer] }

theorem get_installer_by_port_spec_witness :
    get_installer_by_port { server_token := "1", installers := [] } 6 = none := by
  have h := (get_installer_by_port_spec { server_token := "1", installers := [] } 6).2.1
  exact h.mpr (by intro r hr; cases hr)

/-- C3: `add_installer` always appends and grows the sequence by one (no
uniqueness check); `remove_installer` with an absent token is the identity;
with a present token carried by at most one record it shrinks the sequence by
one and the token no longer appears. -/
theorem add_remove_installer_counts (c : Config) (info : InstallerInfo) (tok : String) :
    (add_installer c info).installers.length = c.installers.length + 1
    ∧ ((∀ r ∈ c.installers, r.installer_token ≠ tok) → remove_installer c tok = c)
    ∧ ((∃ r ∈ c.installers, r.installer_token = tok) →
        (c.installers.filter (fun r => r.installer_token == tok)).length ≤ 1 →
        (remove_installer c tok).installers.length = c.installers.length - 1
        ∧ ∀ r ∈ (remove_installer c tok).installers, r.installer_token ≠ tok) := by
  refine ⟨by simp [add_installer], ?_, ?_⟩
  · intro h
    rw [remove_installer_eq_eraseP]
    have hself : c.installers.eraseP (fun item => item.installer_token == tok) = c.installers :=
      List.eraseP_eq_self_iff.mpr (by intro a ha; simpa using h a ha)
    rw [hself]
  · rintro ⟨r, hr, hrtok⟩ hcount
    have hpr : (fun item => item.installer_token == tok) r = true := by simpa using hrtok
    obtain ⟨a, l₁, l₂, hl₁, hpa, heq, herase⟩ :=
      @List.exists_of_eraseP _ (fun item => item.installer_token == tok) c.installers r hr hpr
    have hfilter : c.installers.filter (fun item => item.installer_token == tok) =
        a :: l₂.filter (fun item => item.installer_token == tok) := by
      rw [heq, List.filter_append, List.filter_eq_nil_iff.mpr hl₁]
      simp [List.filter_cons, hpa]
    have hl₂ : ∀ b ∈ l₂, ¬ ((fun item => item.installer_token == tok) b = true) := by
      rw [hfilter] at hcount
      simp only [List.length_cons] at hcount
      have hnil : l₂.filter (fun item => item.installer_token == tok) = [] := by
        have hz : (l₂.filter (fun item => item.installer_token == tok)).length = 0 := by omega
        exact List.length_eq_zero.mp hz
      exact List.filter_eq_nil_iff.mp hnil
    rw [remove_installer_eq_eraseP]
    refine ⟨by simpa using List.length_eraseP_of_mem hr hpr, ?_⟩
    intro x hx
    have hx' : x ∈ c.installers.eraseP (fun item => item.installer_token == tok) := hx
    rw [herase] at hx'
    rcases List.mem_append.mp hx' with h1 | h2
    · simpa using hl₁ x h1
    · simpa using hl₂ x h2

theorem add_remove_installer_counts_witness :
    (remove_installer sample_config "2").installers.length = 0
    ∧ ∀ r ∈ (remove_installer sample_config "2").installers, r.installer_token ≠ "2" := by
  have h := (add_remove_installer_counts sample_config sample_info "2").2.2
    ⟨sample_installer, by simp [sample_config], rfl⟩ (by decide)
  refine ⟨?_, h.2⟩
  rw [h.1]
  rfl

/-- C10: `add_installer` preserves the server token and every prior record in
order, appending the converted record (all nine fields verbatim) at the end;
`remove_installer` preserves the server token and the contents and order of
every record other than the single removed one. -/
theorem add_remove_installer_frame (c : Config) (info : InstallerInfo) (tok : String) :
    (add_installer c info).server_token = c.server_token
    ∧ (add_installer c info).installers = c.installers ++
        [{ url := info.url, installer_token := info.installer_token,
           app_name := info.app_name, app_version := info.app_version,
           app_file_name := info.app_file_name, app_run_port := info.app_run_port,
           jdk_name := info.jdk_name, jdk_version := info.jdk_version,
           jdk_file_name := info.jdk_file_name }]
    ∧ (remove_installer c tok).server_token = c.server_token
    ∧ (remove_installer c tok = c ∨
        ∃ l₁ r l₂, c.installers = l₁ ++ r :: l₂
          ∧ r.installer_token = tok
          ∧ (∀ x ∈ l₁, x.installer_token ≠ tok)
          ∧ (remove_installer c tok).installers = l₁ ++ l₂) := by
  refine ⟨rfl, rfl, by rw [remove_installer_eq_eraseP], ?_⟩
  by_cases h : ∃ r ∈ c.installers, r.installer_token = tok
  · right
    obtain ⟨r, hr, hrtok⟩ := h
    have hpr : (fun item => item.installer_token == tok) r = true := by simpa using hrtok
    obtain ⟨a, l₁, l₂, hl₁, hpa, heq, herase⟩ :=
      @List.exists_of_eraseP _ (fun item => item.installer_token == tok) c.installers r hr hpr
    refine ⟨l₁, a, l₂, heq, by simpa using hpa, fun x hx => by simpa using hl₁ x hx, ?_⟩
    rw [remove_installer_eq_eraseP]
    exact herase
  · left
    rw [remove_installer_eq_eraseP]
    have hself : c.installers.eraseP (fun item => item.installer_token == tok) = c.installers := by
      rw [List.eraseP_eq_self_iff]
      intro a ha
      simp only [beq_iff_eq]
      exact fun hcontra => h ⟨a, ha, hcontra⟩
    rw [hself]

theorem add_remove_installer_frame_witness :
    (add_installer { server_token := "1", installers := [] } sample_info).installers.length = 1 := by
  have h := add_remove_installer_frame { server_token := "1", installers := [] } sample_info "2"
  rw [h.2.1]
  rfl

/-! Concrete model of the external `toml` codec used by `save_to` and
`read_from`.  A file's content is a sequence of text lines; a `Config` is
serialized as a `server_token` key line followed by one `[[installers]]`
table per record, and deserialized by a line-by-line parse that fails on
malformed content.  TOML basic-string escaping (quote, backslash, control
characters) is modelled concretely. -/

/-- Hexadecimal digit character for a value below 16. -/
def hex_digit (n : Nat) : Char :=
  if n < 10 then Char.ofNat (48 + n) else Char.ofNat (87 + n)

/-- Value of a hexadecimal digit character, lowercase letters only. -/
def hex_val? (c : Char) : Option Nat :=
  if 48 ≤ c.toNat ∧ c.toNat ≤ 57 then some (c.toNat - 48)
  else if 97 ≤ c.toNat ∧ c.toNat ≤ 102 then some (c.toNat - 87)
  else none

/-- TOML basic-string escaping of one character: quote and backslash get a
backslash escape, control characters become a `\u00XX` escape, and every
other character stands for itself. -/
def toml_escape_char (c : Char) : List Char :=
  if c = '"' ∨ c = '\\' then ['\\', c]
  else if c.toNat < 32 ∨ c.toNat = 127 then
    ['\\', 'u', '0', '0', hex_digit (c.toNat / 16), hex_digit (c.toNat % 16)]
  else [c]

/-- TOML basic-string escaping of a character sequence. -/
def toml_escape (s : List Char) : List Char :=
  s.flatMap toml_escape_char

/-- A quoted TOML basic string. -/
def toml_quote (s : String) : List Char :=
  '"' :: (toml_escape s.data ++ ['"'])

/-- Big-endian decimal digit characters of a natural number. -/
def nat_chars (n : Nat) : List Char :=
  if n = 0 then ['0']
  else (Nat.digits 10 n).reverse.map (fun d => Char.ofNat (48 + d))

/-- A `key = "string"` line. -/
def string_line (key : String) (s : String) : List Char :=
  key.data ++ (' ' :: '=' :: ' ' :: toml_quote s)

/-- A `key = nat` line. -/
def nat_line (key : String) (n : Nat) : List Char :=
  key.data ++ (' ' :: '=' :: ' ' :: nat_chars n)

/-- The lines of one serialized `[[installers]]` table. -/
def encode_installer (i : InstallerConfig) : List (List Char) :=
  [ "[[installers]]".data,
    string_line "url" i.url,
    string_line "installer_token" i.installer_token,
    string_line "app_name" i.app_name,
    string_line "app_version" i.app_version,
    string_line "app_file_name" i.app_file_name,
    nat_line "app_run_port" i.app_run_port,
    string_line "jdk_name" i.jdk_name,
    string_line "jdk_version" i.jdk_version,
    string_line "jdk_file_name" i.jdk_file_name ]

/-- Model of `toml::to_vec` at the `Config` shape: the `server_token` line
followed by the serialized installer tables. -/
def toml_to_vec (config : Config) : List (List Char) :=
  string_line "server_token" config.server_token ::
    config.installers.flatMap encode_installer

/-- Consume an exact expected character sequence, yielding the remainder. -/
def drop_exact : List Char → List Char → Option (List Char)
  | [], l => some l
  | _ :: _, [] => none
  | p :: ps, c :: cs => if c = p then drop_exact ps cs else none

/-- Parse the body of a TOML basic string after the opening quote, undoing
the escapes, up to and including the closing quote; yields the decoded
characters and the remainder of the line. -/
def parse_string_body : List Char → Option (List Char × List Char)
  | [] => none
  | c :: rest =>
    if c = '"' then some ([], rest)
    else if c = '\\' then
      match rest with
      | [] => none
      | e :: rest2 =>
        if e = '"' then (parse_string_body rest2).map (fun p => ('"' :: p.1, p.2))
        else if e = '\\' then (parse_string_body rest2).map (fun p => ('\\' :: p.1, p.2))
        else if e = 'u' then
          match rest2 with
          | z1 :: z2 :: h1 :: h2 :: rest3 =>
            if z1 = '0' ∧ z2 = '0' then
              match hex_val? h1, hex_val? h2 with
              | some d1, some d2 =>
                (parse_string_body rest3).map
                  (fun p => (Char.ofNat (16 * d1 + d2) :: p.1, p.2))
              | _, _ => none
            else none
          | _ => none
        else none
    else (parse_string_body rest).map (fun p => (c :: p.1, p.2))

/-- Accumulating decimal parse of digit characters. -/
def parse_nat_go : Nat → List Char → Option Nat
  | acc, [] => some acc
  | acc, c :: rest =>
    if 48 ≤ c.toNat ∧ c.toNat ≤ 57 then parse_nat_go (10 * acc + (c.toNat - 48)) rest
    else none

/-- Parse a nonempty all-digit character sequence as a natural number. -/
def parse_nat_chars (l : List Char) : Option Nat :=
  match l with
  | [] => none
  | _ :: _ => parse_nat_go 0 l

/-- Parse a `key = "string"` line, requiring the exact key and consuming the
whole line. -/
def parse_string_line (key : String) (line : List Char) : Option String :=
  match drop_exact (key.data ++ [' ', '=', ' ']) line with
  | none => none
  | some r =>
    match r with
    | '"' :: body =>
      match parse_string_body body with
      | some (s, []) => some (String.mk s)
      | _ => none
    | _ => none

/-- Parse a `key = nat` line, requiring the exact key and consuming the
whole line. -/
def parse_nat_line (key : String) (line : List Char) : Option Nat :=
  match drop_exact (key.data ++ [' ', '=', ' ']) line with
  | none => none
  | some r => parse_nat_chars r

/-- Parse the serialized `[[installers]]` tables. -/
def parse_installers : List (List Char) → Option (List InstallerConfig)
  | [] => some []
  | header :: rest =>
    if header = "[[installers]]".data then
      match rest with
      | l1 :: l2 :: l3 :: l4 :: l5 :: l6 :: l7 :: l8 :: l9 :: rest2 =>
        match parse_string_line "url" l1,
              parse_string_line "installer_token" l2,
              parse_string_line "app_name" l3,
              parse_string_line "app_version" l4,
              parse_string_line "app_file_name" l5,
              parse_nat_line "app_run_port" l6,
              parse_string_line "jdk_name" l7,
              parse_string_line "jdk_version" l8,
              parse_string_line "jdk_file_name" l9 with
        | some url, some tok, some an, some av, some af, some port,
          some jn, some jv, some jf =>
          match parse_installers rest2 with
          | some tail =>
            some ({ url := url, installer_token := tok, app_name := an,
                    app_version := av, app_file_name := af, app_run_port := port,
                    jdk_name := jn, jdk_version := jv, jdk_file_name := jf } :: tail)
          | none => none
        | _, _, _, _, _, _, _, _, _ => none
      | _ => none
    else none

/-- Model of `toml::from_str` at the `Config` shape. -/
def toml_from_str (lines : List (List Char)) : Option Config :=
  match lines with
  | [] => none
  | first :: rest =>
    match parse_string_line "server_token" first,
          parse_installers rest with
    | some st, some inst => some { server_token := st, installers := inst }
    | _, _ => none


theorem drop_exact_append (p l : List Char) : drop_exact p (p ++ l) = some l := by
  induction p with
  | nil => rfl
  | cons c p ih => simp [drop_exact, ih]

theorem char_toNat_ofNat (n : Nat) (h : n < 128) : (Char.ofNat n).toNat = n := by
  unfold Char.ofNat
  split
  · rfl
  · rename_i hv
    exact absurd (Or.inl (by omega)) hv

theorem hex_val?_hex_digit (d : Nat) (h : d < 16) : hex_val? (hex_digit d) = some d := by
  interval_cases d <;> decide

theorem psb_quote (rest : List Char) : parse_string_body ('"' :: rest) = some ([], rest) := by
  rw [parse_string_body.eq_def]
  simp

theorem psb_esc_quote (rest : List Char) :
    parse_string_body ('\\' :: '"' :: rest) =
      (parse_string_body rest).map (fun p => ('"' :: p.1, p.2)) := by
  rw [parse_string_body.eq_def]
  simp

theorem psb_esc_backslash (rest : List Char) :
    parse_string_body ('\\' :: '\\' :: rest) =
      (parse_string_body rest).map (fun p => ('\\' :: p.1, p.2)) := by
  rw [parse_string_body.eq_def]
  simp

theorem psb_other (c : Char) (rest : List Char) (h1 : c ≠ '"') (h2 : c ≠ '\\') :
    parse_string_body (c :: rest) = (parse_string_body rest).map (fun p => (c :: p.1, p.2)) := by
  rw [parse_string_body.eq_def]
  simp [h1, h2]

theorem psb_esc_u (h1 h2 : Char) (d1 d2 : Nat) (rest : List Char)
    (hh1 : hex_val? h1 = some d1) (hh2 : hex_val? h2 = some d2) :
    parse_string_body ('\\' :: 'u' :: '0' :: '0' :: h1 :: h2 :: rest) =
      (parse_string_body rest).map (fun p => (Char.ofNat (16 * d1 + d2) :: p.1, p.2)) := by
  rw [parse_string_body.eq_def]
  simp [hh1, hh2]

theorem parse_string_body_escape (s rest : List Char) :
    parse_string_body (toml_escape s ++ ('"' :: rest)) = some (s, rest) := by
  induction s with
  | nil =>
    rw [show toml_escape [] = [] from rfl, List.nil_append, psb_quote]
  | cons c s ih =>
    rw [show toml_escape (c :: s) = toml_escape_char c ++ toml_escape s by
          simp [toml_escape], List.append_assoc]
    by_cases h1 : c = '"'
    · subst h1
      rw [show toml_escape_char '"' = ['\\', '"'] from rfl]
      simp only [List.cons_append, List.nil_append]
      rw [psb_esc_quote, ih]
      rfl
    · by_cases h2 : c = '\\'
      · subst h2
        rw [show toml_escape_char '\\' = ['\\', '\\'] from rfl]
        simp only [List.cons_append, List.nil_append]
        rw [psb_esc_backslash, ih]
        rfl
      · by_cases h3 : c.toNat < 32 ∨ c.toNat = 127
        · rw [show toml_escape_char c =
                ['\\', 'u', '0', '0', hex_digit (c.toNat / 16), hex_digit (c.toNat % 16)] by
              simp [toml_escape_char, h1, h2, h3]]
          simp only [List.cons_append, List.nil_append]
          rw [psb_esc_u _ _ (c.toNat / 16) (c.toNat % 16) _
                (hex_val?_hex_digit _ (by omega))
                (hex_val?_hex_digit _ (Nat.mod_lt _ (by omega))), ih]
          have hc : Char.ofNat (16 * (c.toNat / 16) + c.toNat % 16) = c := by
            rw [Nat.div_add_mod]
            exact Char.ofNat_toNat c
          rw [hc]
          rfl
        · rw [show toml_escape_char c = [c] by simp [toml_escape_char, h1, h2, h3]]
          simp only [List.cons_append, List.nil_append]
          rw [psb_other c _ h1 h2, ih]
          rfl


theorem parse_nat_go_append (acc : Nat) (l1 l2 : List Char) :
    parse_nat_go acc (l1 ++ l2) =
      match parse_nat_go acc l1 with
      | some m => parse_nat_go m l2
      | none => none := by
  induction l1 generalizing acc with
  | nil => rfl
  | cons c l1 ih =>
    rw [List.cons_append]
    by_cases h : 48 ≤ c.toNat ∧ c.toNat ≤ 57
    · rw [show parse_nat_go acc (c :: (l1 ++ l2)) =
            parse_nat_go (10 * acc + (c.toNat - 48)) (l1 ++ l2) by
          simp [parse_nat_go, h]]
      rw [show parse_nat_go acc (c :: l1) =
            parse_nat_go (10 * acc + (c.toNat - 48)) l1 by
          simp [parse_nat_go, h]]
      exact ih _
    · rw [show parse_nat_go acc (c :: (l1 ++ l2)) = none by simp [parse_nat_go, h]]
      rw [show parse_nat_go acc (c :: l1) = none by simp [parse_nat_go, h]]

theorem parse_nat_go_single (m d : Nat) (hd : d < 10) :
    parse_nat_go m [Char.ofNat (48 + d)] = some (10 * m + d) := by
  have htn : (Char.ofNat (48 + d)).toNat = 48 + d := char_toNat_ofNat _ (by omega)
  simp only [parse_nat_go, htn]
  rw [if_pos (by omega)]
  have : 10 * m + (48 + d - 48) = 10 * m + d := by omega
  rw [this]

theorem parse_nat_go_digits (ds : List Nat) (hds : ∀ d ∈ ds, d < 10) (acc : Nat) :
    parse_nat_go acc (ds.reverse.map (fun d => Char.ofNat (48 + d))) =
      some (acc * 10 ^ ds.length + Nat.ofDigits 10 ds) := by
  induction ds generalizing acc with
  | nil => simp [parse_nat_go, Nat.ofDigits]
  | cons d ds ih =>
    have hd : d < 10 := hds d (by simp)
    have hds' : ∀ x ∈ ds, x < 10 := fun x hx => hds x (by simp [hx])
    rw [List.reverse_cons, List.map_append, parse_nat_go_append, ih hds' acc]
    show parse_nat_go (acc * 10 ^ ds.length + Nat.ofDigits 10 ds)
        ([d].map (fun x => Char.ofNat (48 + x))) = _
    rw [show ([d].map (fun x => Char.ofNat (48 + x))) = [Char.ofNat (48 + d)] by simp]
    rw [parse_nat_go_single _ d hd, Nat.ofDigits_cons]
    congr 1
    simp only [List.length_cons, pow_succ]
    ring

theorem parse_nat_chars_nat_chars (n : Nat) : parse_nat_chars (nat_chars n) = some n := by
  by_cases h : n = 0
  · subst h
    decide
  · unfold nat_chars parse_nat_chars
    rw [if_neg h]
    have hne : (Nat.digits 10 n).reverse.map (fun d => Char.ofNat (48 + d)) ≠ [] := by
      simp [Nat.digits_ne_nil_iff_ne_zero, h]
    cases hl : (Nat.digits 10 n).reverse.map (fun d => Char.ofNat (48 + d)) with
    | nil => exact absurd hl hne
    | cons a l =>
      show parse_nat_go 0 (a :: l) = some n
      rw [← hl, parse_nat_go_digits _ (fun d hd => Nat.digits_lt_base (by norm_num) hd) 0]
      simp [Nat.ofDigits_digits]


theorem parse_string_line_string_line (key s : String) :
    parse_string_line key (string_line key s) = some s := by
  unfold parse_string_line string_line toml_quote
  rw [show key.data ++ (' ' :: '=' :: ' ' :: ('"' :: (toml_escape s.data ++ ['"']))) =
        (key.data ++ [' ', '=', ' ']) ++ ('"' :: (toml_escape s.data ++ ['"'])) by simp]
  rw [drop_exact_append]
  show (match parse_string_body (toml_escape s.data ++ ['"']) with
        | some (s', []) => some (String.mk s')
        | _ => none) = some s
  rw [show (['"'] : List Char) = '"' :: [] from rfl, parse_string_body_escape]

theorem parse_nat_line_nat_line (key : String) (n : Nat) :
    parse_nat_line key (nat_line key n) = some n := by
  unfold parse_nat_line nat_line
  rw [show key.data ++ (' ' :: '=' :: ' ' :: nat_chars n) =
        (key.data ++ [' ', '=', ' ']) ++ nat_chars n by simp]
  rw [drop_exact_append]
  show parse_nat_chars (nat_chars n) = some n
  exact parse_nat_chars_nat_chars n

theorem parse_installers_encode (l : List InstallerConfig) :
    parse_installers (l.flatMap encode_installer) = some l := by
  induction l with
  | nil => rfl
  | cons i l ih =>
    rw [List.flatMap_cons]
    show parse_installers
        ("[[installers]]".data :: string_line "url" i.url ::
          string_line "installer_token" i.installer_token ::
          string_line "app_name" i.app_name ::
          string_line "app_version" i.app_version ::
          string_line "app_file_name" i.app_file_name ::
          nat_line "app_run_port" i.app_run_port ::
          string_line "jdk_name" i.jdk_name ::
          string_line "jdk_version" i.jdk_version ::
          string_line "jdk_file_name" i.jdk_file_name :: l.flatMap encode_installer)
      = some (i :: l)
    simp only [parse_installers, parse_string_line_string_line,
      parse_nat_line_nat_line, ih, if_pos]


/-- The filesystem seen by the config store: file names bound to textual
content (a sequence of lines). -/
abbrev TomlFs := List (String × List (List Char))

/-- A file's content, when the file exists. -/
def fs_lookup (fs : TomlFs) (file_name : String) : Option (List (List Char)) :=
  (fs.find? (fun e => e.1 == file_name)).map (fun e => e.2)

/-- Create-or-truncate write of a whole file. -/
def fs_set (fs : TomlFs) (file_name : String) (content : List (List Char)) : TomlFs :=
  (file_name, content) :: fs.eraseP (fun e => e.1 == file_name)

/-- `save_to` from `src/config.rs`: serialize the store with the TOML codec
and create-or-truncate the named file with exactly that content. -/
def save_to (fs : TomlFs) (config : Config) (file_name : String) : TomlFs :=
  fs_set fs file_name (toml_to_vec config)

/-- Failure kinds of `read_from`: the file is absent, or its content does
not parse. -/
inductive ReadError
  | notFound
  | malformed
deriving DecidableEq, Repr

/-- `read_from` from `src/config.rs`: open and read the named file (an
absent file is a failure), then parse it with the TOML codec (a parse
failure is a distinct failure).  The filesystem comes back unchanged:
reading writes nothing. -/
def read_from (fs : TomlFs) (file_name : String) : Except ReadError (Config × TomlFs) :=
  match fs_lookup fs file_name with
  | none => .error .notFound
  | some contents =>
    match toml_from_str contents with
    | none => .error .malformed
    | some config => .ok (config, fs)

/-- `CONFIG_FILE_NAME` from `src/config.rs`. -/
def CONFIG_FILE_NAME : String := "config.toml"

/-- `get` from `src/config.rs`: read `config.toml` when it exists, and
otherwise produce a fresh store whose `server_token` is the host identifier
with an empty installer sequence.  The `mac_address` argument stands for
`net::get_interface_address().unwrap().mac_address`.  Modelled from the
spec: `src/util/net.rs` is not among the sources; per the spec it yields
the host's derived stable identifier (the network interface MAC address). -/
def get (fs : TomlFs) (mac_address : String) : Except ReadError (Config × TomlFs) :=
  if (fs_lookup fs CONFIG_FILE_NAME).isSome then read_from fs CONFIG_FILE_NAME
  else .ok ({ server_token := mac_address, installers := [] }, fs)

theorem toml_from_str_to_vec (config : Config) :
    toml_from_str (toml_to_vec config) = some config := by
  unfold toml_to_vec toml_from_str
  simp only [parse_string_line_string_line, parse_installers_encode]

theorem fs_lookup_fs_set (fs : TomlFs) (n : String) (v : List (List Char)) :
    fs_lookup (fs_set fs n v) n = some v := by
  unfold fs_lookup fs_set
  simp [List.find?_cons]

/-- C4: persisting a store to a file and reading that file back yields an
equal store: the server identity, an empty installer sequence, and all nine
fields of every installer record round-trip exactly. -/
theorem save_read_round_trip (fs : TomlFs) (file_name : String) (config : Config) :
    read_from (save_to fs config file_name) file_name =
      .ok (config, save_to fs config file_name) := by
  unfold read_from save_to
  simp only [fs_lookup_fs_set, toml_from_str_to_vec]

/-- C5: persisting store `a` and then store `b` to the same file fully
overwrites the earlier content — the file holds exactly the serialization of
`b`, and a subsequent load yields exactly `b`. -/
theorem save_twice_last_write_wins (fs : TomlFs) (file_name : String) (a b : Config) :
    fs_lookup (save_to (save_to fs a file_name) b file_name) file_name =
        some (toml_to_vec b)
    ∧ read_from (save_to (save_to fs a file_name) b file_name) file_name =
        .ok (b, save_to (save_to fs a file_name) b file_name) :=
  ⟨fs_lookup_fs_set _ file_name (toml_to_vec b),
   save_read_round_trip (save_to fs a file_name) file_name b⟩

/-- C6: when no config file exists, `get` returns a fresh store whose
identity is the host's derived MAC address with an empty installer
sequence, and the filesystem comes back unchanged — loading writes no
file. -/
theorem get_fresh_store (fs : TomlFs) (mac_address : String)
    (h : fs_lookup fs CONFIG_FILE_NAME = none) :
    get fs mac_address = .ok ({ server_token := mac_address, installers := [] }, fs) := by
  unfold get
  rw [h]
  rfl

theorem get_fresh_store_witness :
    get [] "00:11:22:33:44:55" =
      .ok ({ server_token := "00:11:22:33:44:55", installers := [] }, []) :=
  get_fresh_store [] "00:11:22:33:44:55" rfl


/-! Filesystem and HTTP model for `src/lib.rs`.  A path is its component
list; the filesystem associates paths with entries (directories, plain
files, or archive files holding their zip entries).  The remote artifact
service is a function from (name, version) to a transport outcome. -/

/-- A filesystem path, as its list of components. -/
abbrev Path := List String

/-- One zip entry: its raw stored name and its content bytes; an entry
whose name ends in a separator is a directory entry. -/
structure ZipEntry where
  name : String
  data : List Char
deriving DecidableEq, Repr

/-- A filesystem entry: a directory, a plain file, or an archive file
together with the entries it contains. -/
inductive FsEntry
  | dir
  | plain (data : List Char)
  | zipData (entries : List ZipEntry)
deriving DecidableEq, Repr

/-- Filesystem state: paths bound to entries. -/
abbrev Fs := List (Path × FsEntry)

/-- Filesystem errors surfaced by the modelled operations. -/
inductive FsError
  | occupied
  | missing
deriving DecidableEq, Repr

/-- The entry at a path, when one exists. -/
def fs_get (fs : Fs) (p : Path) : Option FsEntry :=
  (fs.find? (fun e => e.1 == p)).map (fun e => e.2)

/-- `Path::exists`: any entry at the path. -/
def fs_exists (fs : Fs) (p : Path) : Bool :=
  (fs_get fs p).isSome

/-- Bind a path to an entry, replacing any previous binding. -/
def fs_put (fs : Fs) (p : Path) (e : FsEntry) : Fs :=
  (p, e) :: fs.eraseP (fun x => x.1 == p)

/-- Remove the binding of a path. -/
def fs_del (fs : Fs) (p : Path) : Fs :=
  fs.eraseP (fun x => x.1 == p)

/-- The nonempty proper-and-improper ancestor paths of `p`, shortest
first. -/
def prefixes (p : Path) : List Path :=
  (List.range p.length).map (fun i => p.take (i + 1))

/-- One step of `fs::create_dir_all`: an existing directory is kept, an
existing non-directory is an error, a missing path becomes a directory. -/
def mk_dir_step (fs : Fs) (p : Path) : Except FsError Fs :=
  match fs_get fs p with
  | some .dir => .ok fs
  | some _ => .error .occupied
  | none => .ok (fs_put fs p .dir)

/-- `fs::create_dir_all`: create every missing ancestor of `p` (and `p`)
as a directory. -/
def create_dir_all (fs : Fs) (p : Path) : Except FsError Fs :=
  (prefixes p).foldlM mk_dir_step fs

/-- `File::create`: create-or-truncate a file; an existing directory at the
path is an error, as is an empty path. -/
def file_create (fs : Fs) (p : Path) (e : FsEntry) : Except FsError Fs :=
  if p = [] then .error .missing
  else
    match fs_get fs p with
    | some .dir => .error .occupied
    | _ => .ok (fs_put fs p e)

/-- `fs::copy`: read the source file and create-or-truncate the target with
the same content. -/
def fs_copy (fs : Fs) (src dst : Path) : Except FsError Fs :=
  match fs_get fs src with
  | some (.plain d) => file_create fs dst (.plain d)
  | some (.zipData z) => file_create fs dst (.zipData z)
  | _ => .error .missing

/-- `fs::remove_file`: delete the file at the path. -/
def remove_file (fs : Fs) (p : Path) : Except FsError Fs :=
  match fs_get fs p with
  | some .dir => .error .missing
  | none => .error .missing
  | some _ => .ok (fs_del fs p)

/-- An HTTP response: status code and raw body bytes. -/
structure HttpResponse where
  status : Nat
  body : List Char
deriving DecidableEq, Repr

/-- The remote service: `none` is a transport-level failure of the GET
(DNS, connection refused, timeout), `some` a delivered response. -/
abbrev HttpWorld := String → String → Option HttpResponse

/-- Failure kinds of `download`: a transport failure of the GET, or a
propagated filesystem failure. -/
inductive DownloadError
  | transport
  | fsFail (e : FsError)
deriving DecidableEq, Repr

/-- `ROOT_PATH_SOFTWARE` from `src/lib.rs`. -/
def ROOT_PATH_SOFTWARE : String := "softwares"

/-- `download` from `src/lib.rs`: ensure `softwares/<name>/<version>`
exists, return the target path at once if a file is already there, and
otherwise issue the GET; on a 2xx status stream the body into a newly
created file, on any other status only print — and in both cases return
the target path as success.  The boolean records whether the network was
consulted. -/
def download (world : HttpWorld) (fs : Fs)
    (software_name software_version software_file_name : String) :
    Except DownloadError (Path × Fs × Bool) :=
  let saved_dir_path : Path := [ROOT_PATH_SOFTWARE, software_name, software_version]
  match create_dir_all fs saved_dir_path with
  | .error e => .error (.fsFail e)
  | .ok fs1 =>
    let saved_file_path : Path := saved_dir_path ++ [software_file_name]
    if fs_exists fs1 saved_file_path then
      .ok (saved_file_path, fs1, false)
    else
      match world software_name software_version with
      | none => .error .transport
      | some response =>
        if 200 ≤ response.status ∧ response.status < 300 then
          match file_create fs1 saved_file_path (.plain response.body) with
          | .error e => .error (.fsFail e)
          | .ok fs2 => .ok (saved_file_path, fs2, true)
        else
          .ok (saved_file_path, fs1, true)

theorem mk_dir_step_noop (fs : Fs) (q : Path) (h : fs_get fs q = some .dir) :
    mk_dir_step fs q = .ok fs := by
  unfold mk_dir_step
  rw [h]

theorem foldlM_mk_dir_step_noop (l : List Path) (fs : Fs)
    (h : ∀ q ∈ l, fs_get fs q = some FsEntry.dir) :
    l.foldlM mk_dir_step fs = .ok fs := by
  induction l with
  | nil => rfl
  | cons q l ih =>
    rw [List.foldlM_cons, mk_dir_step_noop fs q (h q (by simp))]
    show l.foldlM mk_dir_step fs = .ok fs
    exact ih (fun q hq => h q (by simp [hq]))

theorem create_dir_all_noop (fs : Fs) (p : Path)
    (h : ∀ q ∈ prefixes p, fs_get fs q = some FsEntry.dir) :
    create_dir_all fs p = .ok fs :=
  foldlM_mk_dir_step_noop (prefixes p) fs h

/-- C2: when a file is already present at the deterministic target path
(and, as on a real filesystem, the directories above it exist), `download`
returns that path immediately: the remote service is never consulted and
the filesystem is returned unmodified. -/
theorem download_cached_no_io (world : HttpWorld) (fs : Fs)
    (software_name software_version software_file_name : String)
    (hdirs : ∀ q ∈ prefixes [ROOT_PATH_SOFTWARE, software_name, software_version],
        fs_get fs q = some FsEntry.dir)
    (hfile : fs_exists fs
        [ROOT_PATH_SOFTWARE, software_name, software_version, software_file_name] = true) :
    download world fs software_name software_version software_file_name =
      .ok ([ROOT_PATH_SOFTWARE, software_name, software_version, software_file_name],
           fs, false) := by
  unfold download
  simp only [create_dir_all_noop fs _ hdirs]
  show (if fs_exists fs
      ([ROOT_PATH_SOFTWARE, software_name, software_version] ++ [software_file_name]) then _
    else _) = _
  rw [show ([ROOT_PATH_SOFTWARE, software_name, software_version] ++ [software_file_name]
        : Path)
      = [ROOT_PATH_SOFTWARE, software_name, software_version, software_file_name] from rfl]
  rw [if_pos hfile]

/-- The one-file software cache used to instantiate the download theorems. -/
def cache_fs : Fs :=
  [ (["softwares"], FsEntry.dir),
    (["softwares", "app"], FsEntry.dir),
    (["softwares", "app", "0.1.0"], FsEntry.dir),
    (["softwares", "app", "0.1.0", "app-0.1.0.zip"], FsEntry.plain []) ]

theorem download_cached_no_io_witness :
    download (fun _ _ => none) cache_fs "app" "0.1.0" "app-0.1.0.zip" =
      .ok (["softwares", "app", "0.1.0", "app-0.1.0.zip"], cache_fs, false) :=
  download_cached_no_io (fun _ _ => none) cache_fs "app" "0.1.0" "app-0.1.0.zip"
    (by decide) (by decide)


/-- C1 (refuting the claim as stated; the code is the slip): with an empty
filesystem and the remote service answering status 404, `download` creates
no file at the target path — but it still returns success carrying the
target path, instead of surfacing a failure with the status code.  Only
the directories were created; no entry exists at the returned path. -/
theorem download_non_success_still_ok :
    download (fun _ _ => some { status := 404, body := [] }) [] "app" "0.1.0" "app-0.1.0.zip" =
      .ok (["softwares", "app", "0.1.0", "app-0.1.0.zip"],
           [ (["softwares", "app", "0.1.0"], FsEntry.dir),
             (["softwares", "app"], FsEntry.dir),
             (["softwares"], FsEntry.dir) ], true)
    ∧ fs_get
        [ (["softwares", "app", "0.1.0"], FsEntry.dir),
          (["softwares", "app"], FsEntry.dir),
          (["softwares"], FsEntry.dir) ]
        ["softwares", "app", "0.1.0", "app-0.1.0.zip"] = none :=
  ⟨rfl, rfl⟩


/-! Model of `unzip_to` / `unzip_file` from `src/lib.rs`, with the zip
crate's entry-name sanitizer modelled from the spec. -/

/-- Errors surfaced by extraction: the archive could not be opened, its
content is not a readable archive, or a filesystem operation failed. -/
inductive UnzipError
  | openFailed
  | notZip
  | fsFail (e : FsError)
deriving DecidableEq, Repr

/-- The separator components of an entry name: both separator styles split,
mirroring the crate's backslash normalization before splitting. -/
def split_comps : List Char → List String
  | [] => [""]
  | c :: rest =>
    if c = '/' ∨ c = '\\' then "" :: split_comps rest
    else
      match split_comps rest with
      | [] => [String.mk [c]]
      | s :: rest' => String.mk (c :: s.data) :: rest'

/-- Modelled from the spec: the zip crate's `sanitized_name` (the crate is
external to the repository) neutralizes absolute paths and
parent-directory traversal — separators are normalized, and empty and
`".."` components are dropped, leaving a relative path. -/
def sanitized_name (name : String) : Path :=
  (split_comps name.data).filter (fun comp => !(comp == "" || comp == ".."))

/-- Whether an entry name marks a directory: it ends in `'/'`. -/
def ends_with_sep (name : String) : Bool :=
  name.data.getLast? == some '/'

/-- Extraction of one archive entry into `parent_dir` (the directory of the
archive file): a directory entry is created recursively; a file entry gets
its missing parent directories created, then its content written.  The
entry name is sanitized before use. -/
def extract_entry (fs : Fs) (parent_dir : Path) (entry : ZipEntry) : Except FsError Fs :=
  let out_path := parent_dir ++ sanitized_name entry.name
  if ends_with_sep entry.name then
    create_dir_all fs out_path
  else
    match (if fs_exists fs out_path.dropLast then .ok fs
           else create_dir_all fs out_path.dropLast) with
    | .error e => .error e
    | .ok fs1 => file_create fs1 out_path (.plain entry.data)

/-- Extraction of all archive entries, in order. -/
def extract_entries (fs : Fs) (parent_dir : Path) : List ZipEntry → Except FsError Fs
  | [] => .ok fs
  | entry :: rest =>
    match extract_entry fs parent_dir entry with
    | .error e => .error e
    | .ok fs1 => extract_entries fs1 parent_dir rest

/-- `unzip_file` from `src/lib.rs`: open the archive at `source_file_path`
and extract every entry into the archive's own directory.  The archive
itself is not deleted. -/
def unzip_file (fs : Fs) (source_file_path : Path) : Except UnzipError Fs :=
  match fs_get fs source_file_path with
  | none => .error .openFailed
  | some FsEntry.dir => .error .openFailed
  | some (FsEntry.plain _) => .error .notZip
  | some (FsEntry.zipData entries) =>
    match extract_entries fs source_file_path.dropLast entries with
    | .error e => .error (.fsFail e)
    | .ok fs1 => .ok fs1

/-- `unzip_to` from `src/lib.rs`: when the archive's directory is not the
target directory, copy the archive into the target directory (creating it
recursively), extract there, and delete the copy; when they coincide,
extract in place. -/
def unzip_to (fs : Fs) (source_file_path target_dir_path : Path) : Except UnzipError Fs :=
  match source_file_path.getLast? with
  | none => .error .openFailed
  | some file_name =>
    let target_path := target_dir_path ++ [file_name]
    if source_file_path = target_path then
      unzip_file fs target_path
    else
      match create_dir_all fs target_dir_path with
      | .error e => .error (.fsFail e)
      | .ok fs1 =>
        match fs_copy fs1 source_file_path target_path with
        | .error e => .error (.fsFail e)
        | .ok fs2 =>
          match unzip_file fs2 target_path with
          | .error e => .error e
          | .ok fs3 =>
            match remove_file fs3 target_path with
            | .error e => .error (.fsFail e)
            | .ok fs4 => .ok fs4


theorem find?_key_eraseP (fs : Fs) (p q : Path) (hne : q ≠ p) :
    (fs.eraseP (fun x => x.1 == p)).find? (fun x => x.1 == q) =
      fs.find? (fun x => x.1 == q) := by
  induction fs with
  | nil => rfl
  | cons a fs ih =>
    rw [List.eraseP_cons]
    cases h : (a.1 == p) with
    | true =>
      have hap : a.1 = p := by simpa using h
      have haq : (a.1 == q) = false := by
        simp [hap]
        exact fun hc => hne hc.symm
      simp only [cond_true, List.find?_cons, haq]
    | false =>
      simp only [cond_false, List.find?_cons]
      cases h2 : (a.1 == q) with
      | true => rfl
      | false => exact ih

theorem fs_get_fs_put (fs : Fs) (p : Path) (e : FsEntry) (q : Path) :
    fs_get (fs_put fs p e) q = if q = p then some e else fs_get fs q := by
  unfold fs_get fs_put
  by_cases hqp : q = p
  · subst hqp
    simp [List.find?_cons]
  · have hpq : (p == q) = false := by
      simp
      exact fun hc => hqp hc.symm
    rw [List.find?_cons]
    simp only [hpq]
    rw [if_neg hqp, find?_key_eraseP fs p q hqp]

theorem fs_get_fs_del (fs : Fs) (p q : Path) (hne : q ≠ p) :
    fs_get (fs_del fs p) q = fs_get fs q := by
  unfold fs_get fs_del
  rw [find?_key_eraseP fs p q hne]


theorem fs_exists_fs_put (fs : Fs) (p : Path) (e : FsEntry) (q : Path) :
    fs_exists (fs_put fs p e) q = true ↔ (q = p ∨ fs_exists fs q = true) := by
  unfold fs_exists
  rw [fs_get_fs_put]
  by_cases hqp : q = p
  · simp [hqp]
  · simp [hqp]

theorem mk_dir_step_spec (fs fs' : Fs) (p : Path) (h : mk_dir_step fs p = .ok fs') :
    (∀ q, fs_exists fs q = true → fs_exists fs' q = true)
    ∧ (∀ q, fs_exists fs' q = true → fs_exists fs q = true ∨ q = p) := by
  unfold mk_dir_step at h
  cases hg : fs_get fs p with
  | none =>
    rw [hg] at h
    cases h
    exact ⟨fun q hq => (fs_exists_fs_put fs p .dir q).mpr (.inr hq),
           fun q hq => ((fs_exists_fs_put fs p .dir q).mp hq).symm⟩
  | some x =>
    rw [hg] at h
    cases x with
    | dir =>
      cases h
      exact ⟨fun q hq => hq, fun q hq => .inl hq⟩
    | plain d => cases h
    | zipData z => cases h

theorem foldlM_mk_dir_step_spec (l : List Path) (fs fs' : Fs)
    (h : l.foldlM mk_dir_step fs = .ok fs') :
    (∀ q, fs_exists fs q = true → fs_exists fs' q = true)
    ∧ (∀ q, fs_exists fs' q = true → fs_exists fs q = true ∨ q ∈ l) := by
  induction l generalizing fs with
  | nil =>
    have h' : (Except.ok fs : Except FsError Fs) = .ok fs' := h
    cases h'
    exact ⟨fun q hq => hq, fun q hq => .inl hq⟩
  | cons a l ih =>
    rw [List.foldlM_cons] at h
    cases hstep : mk_dir_step fs a with
    | error e =>
      rw [hstep] at h
      have h' : (Except.error e : Except FsError Fs) = .ok fs' := h
      cases h'
    | ok fs1 =>
      rw [hstep] at h
      have h1 : l.foldlM mk_dir_step fs1 = .ok fs' := h
      obtain ⟨s1, c1⟩ := mk_dir_step_spec fs fs1 a hstep
      obtain ⟨s2, c2⟩ := ih fs1 h1
      refine ⟨fun q hq => s2 q (s1 q hq), fun q hq => ?_⟩
      rcases c2 q hq with h' | h'
      · rcases c1 q h' with h'' | h''
        · exact .inl h''
        · exact .inr (by simp [h''])
      · exact .inr (by simp [h'])

theorem create_dir_all_spec (fs fs' : Fs) (p : Path)
    (h : create_dir_all fs p = .ok fs') :
    (∀ q, fs_exists fs q = true → fs_exists fs' q = true)
    ∧ (∀ q, fs_exists fs' q = true → fs_exists fs q = true ∨ q ∈ prefixes p) :=
  foldlM_mk_dir_step_spec (prefixes p) fs fs' h

theorem file_create_spec (fs fs' : Fs) (p : Path) (e : FsEntry)
    (h : file_create fs p e = .ok fs') :
    p ≠ [] ∧ fs' = fs_put fs p e := by
  unfold file_create at h
  by_cases hp : p = []
  · rw [if_pos hp] at h
    cases h
  · rw [if_neg hp] at h
    cases hg : fs_get fs p with
    | none =>
      rw [hg] at h
      cases h
      exact ⟨hp, rfl⟩
    | some x =>
      rw [hg] at h
      cases x with
      | dir => cases h
      | plain d =>
        cases h
        exact ⟨hp, rfl⟩
      | zipData z =>
        cases h
        exact ⟨hp, rfl⟩

theorem fs_copy_spec (fs fs' : Fs) (src dst : Path)
    (h : fs_copy fs src dst = .ok fs') :
    fs_exists fs src = true ∧ dst ≠ [] ∧ ∃ ec, fs' = fs_put fs dst ec := by
  unfold fs_copy at h
  cases hg : fs_get fs src with
  | none =>
    rw [hg] at h
    cases h
  | some x =>
    rw [hg] at h
    have hex : fs_exists fs src = true := by simp [fs_exists, hg]
    cases x with
    | dir => cases h
    | plain d =>
      obtain ⟨hne, hput⟩ := file_create_spec fs fs' dst (.plain d) h
      exact ⟨hex, hne, _, hput⟩
    | zipData z =>
      obtain ⟨hne, hput⟩ := file_create_spec fs fs' dst (.zipData z) h
      exact ⟨hex, hne, _, hput⟩

theorem remove_file_spec (fs fs' : Fs) (p : Path)
    (h : remove_file fs p = .ok fs') :
    fs' = fs_del fs p := by
  unfold remove_file at h
  cases hg : fs_get fs p with
  | none =>
    rw [hg] at h
    cases h
  | some x =>
    rw [hg] at h
    cases x with
    | dir => cases h
    | plain d => cases h; rfl
    | zipData z => cases h; rfl


theorem mem_prefixes_iff (p q : Path) :
    q ∈ prefixes p ↔ ∃ i, i < p.length ∧ p.take (i + 1) = q := by
  unfold prefixes
  simp [List.mem_map, List.mem_range]

theorem self_mem_prefixes (p : Path) (h : p ≠ []) : p ∈ prefixes p := by
  rw [mem_prefixes_iff]
  refine ⟨p.length - 1, ?_, ?_⟩
  · have := List.length_pos.mpr h
    omega
  · have hlen : p.length - 1 + 1 = p.length := by
      have := List.length_pos.mpr h
      omega
    rw [hlen, List.take_length]

theorem prefixes_dropLast_subset (p q : Path) (h : q ∈ prefixes p.dropLast) :
    q ∈ prefixes p := by
  rw [mem_prefixes_iff] at h ⊢
  obtain ⟨i, hi, hq⟩ := h
  rw [List.length_dropLast] at hi
  refine ⟨i, by omega, ?_⟩
  rw [List.dropLast_eq_take, List.take_take] at hq
  rw [show min (i + 1) (p.length - 1) = i + 1 by omega] at hq
  exact hq

theorem mem_prefixes_append (A B q : Path) (h : q ∈ prefixes (A ++ B)) :
    q ∈ prefixes A ∨ ∃ m, 1 ≤ m ∧ m ≤ B.length ∧ q = A ++ B.take m := by
  rw [mem_prefixes_iff] at h
  obtain ⟨i, hi, hq⟩ := h
  rw [List.length_append] at hi
  rw [List.take_append_eq_append_take] at hq
  by_cases hle : i + 1 ≤ A.length
  · left
    rw [mem_prefixes_iff]
    refine ⟨i, by omega, ?_⟩
    rw [show i + 1 - A.length = 0 by omega, List.take_zero, List.append_nil] at hq
    exact hq
  · right
    refine ⟨i + 1 - A.length, by omega, by omega, ?_⟩
    rw [List.take_of_length_le (by omega)] at hq
    exact hq.symm

theorem sanitized_name_components (name : String) (comp : String)
    (h : comp ∈ sanitized_name name) : comp ≠ "" ∧ comp ≠ ".." := by
  unfold sanitized_name at h
  have hp := List.of_mem_filter h
  simp only [Bool.not_eq_true', Bool.or_eq_false_iff, beq_eq_false_iff_ne] at hp
  exact hp

theorem fs_exists_fs_del_ne (fs : Fs) (p q : Path) (hne : q ≠ p) :
    fs_exists (fs_del fs p) q = fs_exists fs q := by
  unfold fs_exists
  rw [fs_get_fs_del fs p q hne]


theorem extract_entry_spec (fs fs' : Fs) (parent_dir : Path) (entry : ZipEntry)
    (h : extract_entry fs parent_dir entry = .ok fs') :
    (∀ q, fs_exists fs q = true → fs_exists fs' q = true)
    ∧ (∀ q, fs_exists fs' q = true →
        fs_exists fs q = true ∨ q ∈ prefixes (parent_dir ++ sanitized_name entry.name)) := by
  unfold extract_entry at h
  by_cases hdir : ends_with_sep entry.name = true
  · rw [if_pos hdir] at h
    exact create_dir_all_spec fs fs' _ h
  · rw [if_neg hdir] at h
    by_cases hex : fs_exists fs (parent_dir ++ sanitized_name entry.name).dropLast = true
    · rw [if_pos hex] at h
      have h1 : file_create fs (parent_dir ++ sanitized_name entry.name)
          (.plain entry.data) = .ok fs' := h
      obtain ⟨hne, hput⟩ := file_create_spec fs fs' _ _ h1
      subst hput
      refine ⟨fun q hq => (fs_exists_fs_put fs _ _ q).mpr (.inr hq), fun q hq => ?_⟩
      rcases (fs_exists_fs_put fs _ _ q).mp hq with h' | h'
      · exact .inr (by rw [h']; exact self_mem_prefixes _ hne)
      · exact .inl h'
    · rw [if_neg hex] at h
      cases hcd : create_dir_all fs (parent_dir ++ sanitized_name entry.name).dropLast with
      | error e =>
        rw [hcd] at h
        cases h
      | ok fs1 =>
        rw [hcd] at h
        have h1 : file_create fs1 (parent_dir ++ sanitized_name entry.name)
            (.plain entry.data) = .ok fs' := h
        obtain ⟨s1, c1⟩ := create_dir_all_spec fs fs1 _ hcd
        obtain ⟨hne, hput⟩ := file_create_spec fs1 fs' _ _ h1
        subst hput
        refine ⟨fun q hq => (fs_exists_fs_put fs1 _ _ q).mpr (.inr (s1 q hq)),
                fun q hq => ?_⟩
        rcases (fs_exists_fs_put fs1 _ _ q).mp hq with h' | h'
        · exact .inr (by rw [h']; exact self_mem_prefixes _ hne)
        · rcases c1 q h' with h'' | h''
          · exact .inl h''
          · exact .inr (prefixes_dropLast_subset _ q h'')

theorem extract_entries_spec (entries : List ZipEntry) (fs fs' : Fs) (parent_dir : Path)
    (h : extract_entries fs parent_dir entries = .ok fs') :
    (∀ q, fs_exists fs q = true → fs_exists fs' q = true)
    ∧ (∀ q, fs_exists fs' q = true → fs_exists fs q = true ∨
        ∃ entry, entry ∈ entries ∧ q ∈ prefixes (parent_dir ++ sanitized_name entry.name)) := by
  induction entries generalizing fs with
  | nil =>
    have h' : (Except.ok fs : Except FsError Fs) = .ok fs' := h
    cases h'
    exact ⟨fun q hq => hq, fun q hq => .inl hq⟩
  | cons e rest ih =>
    unfold extract_entries at h
    cases hstep : extract_entry fs parent_dir e with
    | error err =>
      rw [hstep] at h
      cases h
    | ok fs1 =>
      rw [hstep] at h
      have h1 : extract_entries fs1 parent_dir rest = .ok fs' := h
      obtain ⟨s1, c1⟩ := extract_entry_spec fs fs1 parent_dir e hstep
      obtain ⟨s2, c2⟩ := ih fs1 h1
      refine ⟨fun q hq => s2 q (s1 q hq), fun q hq => ?_⟩
      rcases c2 q hq with h' | ⟨entry, hm, hpre⟩
      · rcases c1 q h' with h'' | h''
        · exact .inl h''
        · exact .inr ⟨e, by simp, h''⟩
      · exact .inr ⟨entry, by simp [hm], hpre⟩

theorem unzip_file_spec (fs fs' : Fs) (p : Path) (h : unzip_file fs p = .ok fs') :
    fs_exists fs p = true
    ∧ (∀ q, fs_exists fs q = true → fs_exists fs' q = true) := by
  unfold unzip_file at h
  cases hg : fs_get fs p with
  | none =>
    rw [hg] at h
    cases h
  | some x =>
    rw [hg] at h
    cases x with
    | dir => cases h
    | plain d => cases h
    | zipData entries =>
      have h2 : (match extract_entries fs p.dropLast entries with
          | Except.error e => Except.error (UnzipError.fsFail e)
          | Except.ok fs1 => Except.ok fs1) = Except.ok fs' := h
      cases hrun : extract_entries fs p.dropLast entries with
      | error e =>
        rw [hrun] at h2
        cases h2
      | ok fs1 =>
        rw [hrun] at h2
        cases h2
        exact ⟨by simp [fs_exists, hg],
               (extract_entries_spec entries fs _ p.dropLast hrun).1⟩


/-- C7: `unzip_to` never deletes the original archive: after a successful
run the source archive still exists; when source and target coincide no
path at all is deleted, and otherwise the only path that may disappear is
the archive copy placed in the target directory. -/
theorem unzip_to_preserves_source (fs fs' : Fs) (source_file_path target_dir_path : Path)
    (file_name : String) (hlast : source_file_path.getLast? = some file_name)
    (hrun : unzip_to fs source_file_path target_dir_path = .ok fs') :
    fs_exists fs' source_file_path = true
    ∧ (source_file_path = target_dir_path ++ [file_name] →
        ∀ p, fs_exists fs p = true → fs_exists fs' p = true)
    ∧ (source_file_path ≠ target_dir_path ++ [file_name] →
        ∀ p, fs_exists fs p = true → p ≠ target_dir_path ++ [file_name] →
          fs_exists fs' p = true) := by
  unfold unzip_to at hrun
  rw [hlast] at hrun
  have hrun2 : (if source_file_path = target_dir_path ++ [file_name] then
      unzip_file fs (target_dir_path ++ [file_name])
    else
      match create_dir_all fs target_dir_path with
      | Except.error e => Except.error (UnzipError.fsFail e)
      | Except.ok fs1 =>
        match fs_copy fs1 source_file_path (target_dir_path ++ [file_name]) with
        | Except.error e => Except.error (UnzipError.fsFail e)
        | Except.ok fs2 =>
          match unzip_file fs2 (target_dir_path ++ [file_name]) with
          | Except.error e => Except.error e
          | Except.ok fs3 =>
            match remove_file fs3 (target_dir_path ++ [file_name]) with
            | Except.error e => Except.error (UnzipError.fsFail e)
            | Except.ok fs4 => Except.ok fs4) = Except.ok fs' := hrun
  clear hrun
  by_cases hsame : source_file_path = target_dir_path ++ [file_name]
  · rw [if_pos hsame] at hrun2
    obtain ⟨hex, hpres⟩ := unzip_file_spec fs fs' _ hrun2
    rw [← hsame] at hex
    exact ⟨hpres source_file_path hex, fun _ p hp => hpres p hp,
           fun hne => absurd hsame hne⟩
  · rw [if_neg hsame] at hrun2
    cases h1 : create_dir_all fs target_dir_path with
    | error e =>
      rw [h1] at hrun2
      cases hrun2
    | ok fs1 =>
      rw [h1] at hrun2
      have hrun3 : (match fs_copy fs1 source_file_path (target_dir_path ++ [file_name]) with
        | Except.error e => Except.error (UnzipError.fsFail e)
        | Except.ok fs2 =>
          match unzip_file fs2 (target_dir_path ++ [file_name]) with
          | Except.error e => Except.error e
          | Except.ok fs3 =>
            match remove_file fs3 (target_dir_path ++ [file_name]) with
            | Except.error e => Except.error (UnzipError.fsFail e)
            | Except.ok fs4 => Except.ok fs4) = Except.ok fs' := hrun2
      clear hrun2
      cases h2 : fs_copy fs1 source_file_path (target_dir_path ++ [file_name]) with
      | error e =>
        rw [h2] at hrun3
        cases hrun3
      | ok fs2 =>
        rw [h2] at hrun3
        have hrun4 : (match unzip_file fs2 (target_dir_path ++ [file_name]) with
          | Except.error e => Except.error e
          | Except.ok fs3 =>
            match remove_file fs3 (target_dir_path ++ [file_name]) with
            | Except.error e => Except.error (UnzipError.fsFail e)
            | Except.ok fs4 => Except.ok fs4) = Except.ok fs' := hrun3
        clear hrun3
        cases h3 : unzip_file fs2 (target_dir_path ++ [file_name]) with
        | error e =>
          rw [h3] at hrun4
          cases hrun4
        | ok fs3 =>
          rw [h3] at hrun4
          have hrun5 : (match remove_file fs3 (target_dir_path ++ [file_name]) with
            | Except.error e => Except.error (UnzipError.fsFail e)
            | Except.ok fs4 => Except.ok fs4) = Except.ok fs' := hrun4
          clear hrun4
          cases h4 : remove_file fs3 (target_dir_path ++ [file_name]) with
          | error e =>
            rw [h4] at hrun5
            cases hrun5
          | ok fs4 =>
            rw [h4] at hrun5
            cases hrun5
            obtain ⟨s1, _⟩ := create_dir_all_spec fs fs1 target_dir_path h1
            obtain ⟨hsrc1, _, ec, hput⟩ :=
              fs_copy_spec fs1 fs2 source_file_path (target_dir_path ++ [file_name]) h2
            obtain ⟨_, s3⟩ := unzip_file_spec fs2 fs3 _ h3
            have hdel := remove_file_spec fs3 fs' _ h4
            subst hdel
            have step2 : ∀ q, fs_exists fs1 q = true → fs_exists fs2 q = true := by
              intro q hq
              rw [hput]
              exact (fs_exists_fs_put fs1 _ ec q).mpr (.inr hq)
            have final : ∀ q, q ≠ target_dir_path ++ [file_name] →
                fs_exists fs3 q = true →
                fs_exists (fs_del fs3 (target_dir_path ++ [file_name])) q = true := by
              intro q hq hq3
              rw [fs_exists_fs_del_ne fs3 _ q hq]
              exact hq3
            refine ⟨final source_file_path hsame (s3 _ (step2 _ hsrc1)), ?_, ?_⟩
            · intro hcontra
              exact absurd hcontra hsame
            · intro _ p hp hne
              exact final p hne (s3 p (step2 p (s1 p hp)))

/-- C8: every archive entry's path is sanitized before use, so absolute
paths and parent-directory traversal components are neutralized, and every
file or directory created by extraction lies inside the extraction
directory: any path that exists afterwards but not before extends
`parent_dir` by a nonempty suffix free of empty and `".."` components. -/
theorem extraction_stays_inside (entries : List ZipEntry) (fs fs' : Fs) (parent_dir : Path)
    (hanc : ∀ q ∈ prefixes parent_dir, fs_exists fs q = true)
    (hrun : extract_entries fs parent_dir entries = .ok fs') :
    (∀ name comp, comp ∈ sanitized_name name → comp ≠ "" ∧ comp ≠ "..")
    ∧ ∀ q, fs_exists fs' q = true → fs_exists fs q = true ∨
        ∃ suffix, suffix ≠ [] ∧ q = parent_dir ++ suffix ∧
          ∀ comp ∈ suffix, comp ≠ "" ∧ comp ≠ ".." := by
  refine ⟨fun name comp h => sanitized_name_components name comp h, ?_⟩
  intro q hq
  rcases (extract_entries_spec entries fs fs' parent_dir hrun).2 q hq with h | ⟨entry, _, hpre⟩
  · exact .inl h
  · rcases mem_prefixes_append parent_dir (sanitized_name entry.name) q hpre with
      h | ⟨m, hm1, hm2, hq'⟩
    · exact .inl (hanc q h)
    · right
      refine ⟨(sanitized_name entry.name).take m, ?_, hq', ?_⟩
      · apply List.ne_nil_of_length_pos
        rw [List.length_take]
        omega
      · intro comp hc
        exact sanitized_name_components entry.name comp (List.mem_of_mem_take hc)


/-- The archive fixture used to instantiate the extraction theorems: a
directory `d` holding an archive with a directory entry and a traversal
entry. -/
def zip_fixture : Fs :=
  [ (["d"], FsEntry.dir),
    (["d", "a.zip"], FsEntry.zipData
      [ { name := "sub/", data := [] },
        { name := "../f.txt", data := ['h', 'i'] } ]) ]

/-- The filesystem produced by extracting the fixture archive into `t`. -/
def zip_fixture_result : Fs :=
  [ (["t", "f.txt"], FsEntry.plain ['h', 'i']),
    (["t", "sub"], FsEntry.dir),
    (["t"], FsEntry.dir),
    (["d"], FsEntry.dir),
    (["d", "a.zip"], FsEntry.zipData
      [ { name := "sub/", data := [] },
        { name := "../f.txt", data := ['h', 'i'] } ]) ]

theorem unzip_to_preserves_source_witness :
    fs_exists zip_fixture_result ["d", "a.zip"] = true :=
  (unzip_to_preserves_source zip_fixture zip_fixture_result ["d", "a.zip"] ["t"] "a.zip"
    rfl rfl).1

theorem extraction_stays_inside_witness :
    fs_exists [(["t"], FsEntry.dir)] ["t", "f.txt"] = true ∨
      ∃ suffix, suffix ≠ [] ∧ (["t", "f.txt"] : Path) = ["t"] ++ suffix ∧
        ∀ comp ∈ suffix, comp ≠ "" ∧ comp ≠ ".." :=
  (extraction_stays_inside
      [ { name := "sub/", data := [] }, { name := "../f.txt", data := ['h', 'i'] } ]
      [(["t"], FsEntry.dir)]
      [ (["t", "f.txt"], FsEntry.plain ['h', 'i']),
        (["t", "sub"], FsEntry.dir),
        (["t"], FsEntry.dir) ]
      ["t"] (by decide) rfl).2 ["t", "f.txt"] rfl

end Installer
